import Mathlib

/-!
Verification of the cortile workspace tiling engine: a shallow embedding of
`layout/vertical.go` (the vertical master/slave layout pass and its inverse
proportion-update pass) and `store/client.go` (the client move lock), with
theorems checking the natural-language specification against the code.

Proportions are embedded as rationals; Go's `math.Round` (round half away
from zero) is embedded explicitly as `goRound`.
-/

namespace Cortile

/-- Go's `math.Round`: round to the nearest integer, half away from zero. -/
def goRound (q : ℚ) : ℤ :=
  if q < 0 then -(Int.floor (-q + 1/2)) else Int.floor (q + 1/2)

lemma goRound_le (q : ℚ) : (goRound q : ℚ) ≤ q + 1/2 := by
  unfold goRound
  split
  · push_cast
    have h1 : (-q + 1/2) - 1 < (Int.floor (-q + 1/2) : ℚ) := Int.sub_one_lt_floor _
    linarith
  · exact (Int.floor_le (q + 1/2))

lemma le_goRound (q : ℚ) : q - 1/2 ≤ (goRound q : ℚ) := by
  unfold goRound
  split
  · push_cast
    have h1 : (Int.floor (-q + 1/2) : ℚ) ≤ -q + 1/2 := Int.floor_le _
    linarith
  · have h1 : (q + 1/2) - 1 < (Int.floor (q + 1/2) : ℚ) := Int.sub_one_lt_floor _
    linarith

lemma abs_goRound_sub_le (q : ℚ) : |(goRound q : ℚ) - q| ≤ 1/2 := by
  rw [abs_le]
  constructor
  · have := le_goRound q
    linarith
  · have := goRound_le q
    linarith

lemma goRound_nonneg (q : ℚ) (h : 0 ≤ q) : 0 ≤ goRound q := by
  unfold goRound
  rw [if_neg (by linarith)]
  rw [Int.le_floor]
  norm_num
  linarith

/-- A window rectangle in pixel coordinates, as issued by `MoveResize`. -/
structure Rect where
  x : ℤ
  y : ℤ
  w : ℤ
  h : ℤ
deriving Repr, DecidableEq

/-- Two rectangles do not overlap (their interiors are separated along an axis). -/
def Rect.disjoint (a b : Rect) : Prop :=
  a.x + a.w ≤ b.x ∨ b.x + b.w ≤ a.x ∨ a.y + a.h ≤ b.y ∨ b.y + b.h ≤ a.y

instance (a b : Rect) : Decidable (Rect.disjoint a b) := by
  unfold Rect.disjoint
  infer_instance

/-- The state read by `VerticalLayout.Do`: the layout name, the desktop
dimensions `common.DesktopDimensions()`, the gap `common.Config.WindowGapSize`,
the manager's `Masters.Allowed`/`Slaves.Allowed` bounds, the lengths of
`Masters.Clients`/`Slaves.Clients`, and the three proportion vectors.
Per the spec's data model, `Clients()` is the disjoint union of the master
and slave partitions, so `len(l.Clients())` is `nMasters + nSlaves`. -/
structure LayoutInput where
  name : String
  dx : ℤ
  dy : ℤ
  dw : ℤ
  dh : ℤ
  gap : ℤ
  mmax : ℕ
  smax : ℕ
  nMasters : ℕ
  nSlaves : ℕ
  masterSlave : List ℚ
  masterMaster : List ℚ
  slaveSlave : List ℚ
deriving Repr, DecidableEq

/-- One column loop of `VerticalLayout.Do` (lines 76-92 and 102-118 of
`layout/vertical.go`): walk `k` remaining clients starting at loop index `i`
with running offset `y`; the y offset resets to `dy + gap` whenever
`i % amax == 0`, each height is `math.Round(float64(dh-(asize+1)*gap) * p)`
with `p` the proportion at index `i % asize`, and `x`/`w` are the column
position and width passed to `MoveResize`. -/
def tilePass (amax asize : ℕ) (dy gap dh x w : ℤ) (props : List ℚ) :
    ℕ → ℕ → ℤ → List Rect
  | 0, _, _ => []
  | k + 1, i, y =>
    let y1 := if i % amax = 0 then dy + gap else y
    let p := props.getD (i % asize) 0
    let h := goRound (((dh - ((asize : ℤ) + 1) * gap : ℤ) : ℚ) * p)
    Rect.mk x y1 w h :: tilePass amax asize dy gap dh x w props k (i + 1) (y1 + h + gap)

/-- The master column width computed at line 52 of `layout/vertical.go`:
`int(math.Round(float64(dw) * l.Proportions.MasterSlave[0]))`. -/
def mwOf (l : LayoutInput) : ℤ :=
  goRound ((l.dw : ℚ) * l.masterSlave.getD 0 0)

/-- `VerticalLayout.Do` (lines 37-122 of `layout/vertical.go`), returning the
rectangles passed to `MoveResize` for the master clients and for the slave
clients, in client order. -/
def Do (l : LayoutInput) : List Rect × List Rect :=
  let gap := l.gap
  let msize := min l.nMasters l.mmax
  let ssize := min l.nSlaves l.smax
  let csize := l.nMasters + l.nSlaves
  let mx0 := l.dx
  let mw0 := mwOf l
  let sx0 := mx0 + mw0
  let sw0 := l.dw - mw0
  let swap := l.name = "vertical-right" ∧ csize > l.mmax
  let mx := if swap then sx0 else mx0
  let mw1 := if swap then sw0 else mw0
  let sx1 := if swap then mx0 + gap else sx0
  let sw1 := if swap then mw0 else sw0
  let mw := if 0 < msize ∧ ssize = 0 then l.dw else mw1
  let masters :=
    if 0 < msize then
      tilePass l.mmax msize l.dy gap l.dh (mx + gap) (mw - 2 * gap) l.masterMaster
        l.nMasters 0 0
    else []
  let sx := if 0 < ssize ∧ msize = 0 then l.dx + gap else sx1
  let sw := if 0 < ssize ∧ msize = 0 then l.dw - gap else sw1
  let slaves :=
    if 0 < ssize then
      tilePass l.smax ssize l.dy gap l.dh sx (sw - gap) l.slaveSlave l.nSlaves 0 0
    else []
  (masters, slaves)

/-- Helper: a stack of rectangles with fixed `x`/`w`, the given heights, and
a vertical gap `g` between consecutive rectangles, starting at offset `y`. -/
def stackFrom (x w g : ℤ) : ℤ → List ℤ → List Rect
  | _, [] => []
  | y, h :: hs => Rect.mk x y w h :: stackFrom x w g (y + h + g) hs

section ListHelpers

lemma range_map_getD_take (props : List ℚ) :
    ∀ n : ℕ, n ≤ props.length →
      (List.range n).map (fun j => props.getD j 0) = props.take n := by
  induction props with
  | nil =>
    intro n hn
    simp at hn
    simp [hn]
  | cons p ps ih =>
    intro n hn
    cases n with
    | zero => simp
    | succ m =>
      rw [List.range_succ_eq_map, List.map_cons, List.map_map]
      simp only [List.getD_cons_zero, List.take_succ_cons]
      congr 1
      have : ((fun j => (p :: ps).getD j 0) ∘ Nat.succ) = fun j => ps.getD j 0 := by
        funext j
        simp [Function.comp, List.getD_cons_succ]
      rw [this]
      exact ih m (by simpa using hn)

lemma list_sum_set (l : List ℚ) :
    ∀ (n : ℕ), n < l.length → ∀ a : ℚ, (l.set n a).sum = l.sum - l.getD n 0 + a := by
  induction l with
  | nil => intro n hn; simp at hn
  | cons p ps ih =>
    intro n hn a
    cases n with
    | zero => simp [List.set]; ring
    | succ m =>
      simp only [List.set, List.sum_cons, List.getD_cons_succ]
      rw [ih m (by simpa using hn) a]
      ring

lemma list_getD_set_of_ne (l : List ℚ) :
    ∀ (m n : ℕ) (a : ℚ), m ≠ n → (l.set m a).getD n 0 = l.getD n 0 := by
  induction l with
  | nil => intro m n a _; simp [List.set]
  | cons p ps ih =>
    intro m n a hmn
    cases m with
    | zero =>
      cases n with
      | zero => exact absurd rfl hmn
      | succ k => simp [List.set, List.getD_cons_succ]
    | succ j =>
      cases n with
      | zero => simp [List.set]
      | succ k =>
        simp only [List.set, List.getD_cons_succ]
        exact ih j k a (by omega)

lemma list_sum_map_sub (l : List ℚ) (f g : ℚ → ℚ) :
    (l.map (fun a => f a - g a)).sum = (l.map f).sum - (l.map g).sum := by
  induction l with
  | nil => simp
  | cons p ps ih => simp [ih]; ring

lemma sum_map_goRound_le (qs : List ℚ) :
    (((qs.map goRound).sum : ℤ) : ℚ) ≤ qs.sum + qs.length / 2 := by
  induction qs with
  | nil => simp
  | cons q l ih =>
    simp only [List.map_cons, List.sum_cons, List.length_cons]
    push_cast
    have h1 := goRound_le q
    push_cast at ih
    linarith

lemma le_sum_map_goRound (qs : List ℚ) :
    qs.sum - qs.length / 2 ≤ (((qs.map goRound).sum : ℤ) : ℚ) := by
  induction qs with
  | nil => simp
  | cons q l ih =>
    simp only [List.map_cons, List.sum_cons, List.length_cons]
    push_cast
    have h1 := le_goRound q
    push_cast at ih
    linarith

end ListHelpers

section StackLemmas

lemma stackFrom_length (x w g : ℤ) :
    ∀ (hs : List ℤ) (y : ℤ), (stackFrom x w g y hs).length = hs.length := by
  intro hs
  induction hs with
  | nil => intro y; simp [stackFrom]
  | cons h t ih => intro y; simp [stackFrom, ih]

lemma stackFrom_mem_xw (x w g : ℤ) :
    ∀ (hs : List ℤ) (y : ℤ), ∀ r ∈ stackFrom x w g y hs, r.x = x ∧ r.w = w := by
  intro hs
  induction hs with
  | nil => intro y r hr; simp [stackFrom] at hr
  | cons h t ih =>
    intro y r hr
    simp only [stackFrom, List.mem_cons] at hr
    rcases hr with hr | hr
    · subst hr; exact ⟨rfl, rfl⟩
    · exact ih _ r hr

lemma stackFrom_map_h (x w g : ℤ) :
    ∀ (hs : List ℤ) (y : ℤ), (stackFrom x w g y hs).map Rect.h = hs := by
  intro hs
  induction hs with
  | nil => intro y; simp [stackFrom]
  | cons h t ih => intro y; simp [stackFrom, ih]

lemma stackFrom_mem_bounds (x w g : ℤ) (hg : 0 ≤ g) :
    ∀ (hs : List ℤ) (y : ℤ), (∀ h ∈ hs, 0 ≤ h) →
      ∀ r ∈ stackFrom x w g y hs,
        y ≤ r.y ∧ 0 ≤ r.h ∧ r.y + r.h ≤ y + hs.sum + g * ((hs.length : ℤ) - 1) := by
  intro hs
  induction hs with
  | nil => intro y _ r hr; simp [stackFrom] at hr
  | cons h t ih =>
    intro y hpos r hr
    have hh : 0 ≤ h := hpos h (by simp)
    have htpos : ∀ a ∈ t, 0 ≤ a := fun a ha => hpos a (by simp [ha])
    have htsum : 0 ≤ t.sum := List.sum_nonneg htpos
    simp only [stackFrom, List.mem_cons] at hr
    rcases hr with hr | hr
    · subst hr
      refine ⟨le_refl _, hh, ?_⟩
      simp only [List.sum_cons, List.length_cons]
      have hgl : 0 ≤ g * (t.length : ℤ) := mul_nonneg hg (by positivity)
      push_cast
      linarith
    · obtain ⟨h1, h2, h3⟩ := ih (y + h + g) htpos r hr
      refine ⟨by linarith, h2, ?_⟩
      simp only [List.sum_cons, List.length_cons]
      push_cast
      linarith

lemma stackFrom_pairwise (x w g : ℤ) (hg : 0 ≤ g) :
    ∀ (hs : List ℤ) (y : ℤ), (∀ h ∈ hs, 0 ≤ h) →
      List.Pairwise (fun a b => a.y + a.h ≤ b.y) (stackFrom x w g y hs) := by
  intro hs
  induction hs with
  | nil => intro y _; simp [stackFrom]
  | cons h t ih =>
    intro y hpos
    have htpos : ∀ a ∈ t, 0 ≤ a := fun a ha => hpos a (by simp [ha])
    simp only [stackFrom]
    constructor
    · intro r hr
      have := (stackFrom_mem_bounds x w g hg t (y + h + g) htpos r hr).1
      simp only
      linarith
    · exact ih (y + h + g) htpos

lemma stackFrom_last_bottom (x w g : ℤ) (d : Rect) :
    ∀ (hs : List ℤ) (y : ℤ), hs ≠ [] →
      ((stackFrom x w g y hs).getD (hs.length - 1) d).y
          + ((stackFrom x w g y hs).getD (hs.length - 1) d).h
        = y + hs.sum + g * ((hs.length : ℤ) - 1) := by
  intro hs
  induction hs with
  | nil => intro y hy; exact absurd rfl hy
  | cons h t ih =>
    intro y _
    cases t with
    | nil => simp [stackFrom]
    | cons h2 t2 =>
      have hne : (h2 :: t2) ≠ [] := by simp
      have hstep := ih (y + h + g) hne
      rw [stackFrom]
      rw [show (h :: h2 :: t2).length - 1 = ((h2 :: t2).length - 1) + 1 by
        simp only [List.length_cons]; omega]
      rw [List.getD_cons_succ]
      rw [hstep]
      simp only [List.sum_cons, List.length_cons]
      push_cast
      ring

end StackLemmas

section TilePassLemmas

lemma tilePass_length (amax asize : ℕ) (dy gap dh x w : ℤ) (props : List ℚ) :
    ∀ (k i : ℕ) (y : ℤ), (tilePass amax asize dy gap dh x w props k i y).length = k := by
  intro k
  induction k with
  | zero => intro i y; simp [tilePass]
  | succ n ih => intro i y; simp [tilePass, ih]

lemma tilePass_mem_xw (amax asize : ℕ) (dy gap dh x w : ℤ) (props : List ℚ) :
    ∀ (k i : ℕ) (y : ℤ), ∀ r ∈ tilePass amax asize dy gap dh x w props k i y,
      r.x = x ∧ r.w = w := by
  intro k
  induction k with
  | zero => intro i y r hr; simp [tilePass] at hr
  | succ n ih =>
    intro i y r hr
    simp only [tilePass, List.mem_cons] at hr
    rcases hr with hr | hr
    · subst hr; exact ⟨rfl, rfl⟩
    · exact ih (i + 1) _ r hr

lemma tilePass_map_xw (amax asize : ℕ) (dy gap dh x w x2 w2 : ℤ) (props : List ℚ) :
    ∀ (k i : ℕ) (y : ℤ),
      tilePass amax asize dy gap dh x2 w2 props k i y
        = (tilePass amax asize dy gap dh x w props k i y).map
            (fun r => Rect.mk x2 r.y w2 r.h) := by
  intro k
  induction k with
  | zero => intro i y; simp [tilePass]
  | succ n ih =>
    intro i y
    simp only [tilePass, List.map_cons]
    congr 1
    exact ih (i + 1) _

lemma tilePass_no_wrap (amax asize : ℕ) (dy gap dh x w : ℤ) (props : List ℚ) :
    ∀ (k i : ℕ) (y : ℤ), 1 ≤ i → i + k ≤ asize → asize ≤ amax →
      tilePass amax asize dy gap dh x w props k i y
        = stackFrom x w gap y ((List.range k).map (fun j =>
            goRound (((dh - ((asize : ℤ) + 1) * gap : ℤ) : ℚ) * props.getD (i + j) 0))) := by
  intro k
  induction k with
  | zero => intro i y _ _ _; simp [tilePass, stackFrom]
  | succ n ih =>
    intro i y hi hik ham
    have hil : i < amax := by omega
    have his : i < asize := by omega
    have hns : ¬ (i % amax = 0) := by
      rw [Nat.mod_eq_of_lt hil]
      omega
    have hrange : (List.range (n + 1)).map (fun j =>
        goRound (((dh - ((asize : ℤ) + 1) * gap : ℤ) : ℚ) * props.getD (i + j) 0))
        = goRound (((dh - ((asize : ℤ) + 1) * gap : ℤ) : ℚ) * props.getD i 0)
          :: (List.range n).map (fun j =>
            goRound (((dh - ((asize : ℤ) + 1) * gap : ℤ) : ℚ) * props.getD (i + 1 + j) 0)) := by
      rw [List.range_succ_eq_map, List.map_cons, List.map_map]
      congr 1
      apply List.map_congr_left
      intro j _
      simp only [Function.comp, Nat.succ_eq_add_one]
      rw [show i + (j + 1) = i + 1 + j by omega]
    simp only [tilePass]
    rw [if_neg hns, Nat.mod_eq_of_lt his, hrange, stackFrom]
    congr 1
    exact ih (i + 1) _ (by omega) (by omega) ham

lemma tilePass_closed (amax asize : ℕ) (dy gap dh x w : ℤ) (props : List ℚ)
    (h1 : asize ≤ amax) (h2 : 0 < asize) (hlen : asize ≤ props.length) :
    tilePass amax asize dy gap dh x w props asize 0 0
      = stackFrom x w gap (dy + gap) ((props.take asize).map (fun p =>
          goRound (((dh - ((asize : ℤ) + 1) * gap : ℤ) : ℚ) * p))) := by
  obtain ⟨m, hm⟩ : ∃ m, asize = m + 1 := ⟨asize - 1, by omega⟩
  have hkey : (props.take asize).map (fun p =>
      goRound (((dh - ((asize : ℤ) + 1) * gap : ℤ) : ℚ) * p))
      = (List.range asize).map (fun j =>
          goRound (((dh - ((asize : ℤ) + 1) * gap : ℤ) : ℚ) * props.getD j 0)) := by
    rw [← range_map_getD_take props asize hlen, List.map_map]
    rfl
  have hrange : (List.range asize).map (fun j =>
      goRound (((dh - ((asize : ℤ) + 1) * gap : ℤ) : ℚ) * props.getD j 0))
      = goRound (((dh - ((asize : ℤ) + 1) * gap : ℤ) : ℚ) * props.getD 0 0)
        :: (List.range m).map (fun j =>
          goRound (((dh - ((asize : ℤ) + 1) * gap : ℤ) : ℚ) * props.getD (1 + j) 0)) := by
    rw [hm, List.range_succ_eq_map, List.map_cons, List.map_map]
    congr 1
    apply List.map_congr_left
    intro j _
    simp only [Function.comp, Nat.succ_eq_add_one]
    rw [show j + 1 = 1 + j by omega]
  rw [hkey, hrange, stackFrom]
  rw [show tilePass amax asize dy gap dh x w props asize 0 0
      = tilePass amax asize dy gap dh x w props (m + 1) 0 0 by rw [hm]]
  simp only [tilePass]
  rw [if_pos (by simp), Nat.zero_mod]
  congr 1
  exact tilePass_no_wrap amax asize dy gap dh x w props m 1 _ (le_refl 1) (by omega) h1

end TilePassLemmas

/-- Modelled from the spec: `store.Manager.SetProportions` is not among the
provided sources (only its callers in `layout/vertical.go` are), so it is
modelled from spec §4.1: it sets `vector[indexA] = value`, adjusts
`vector[indexB] = vector[indexB]_old + vector[indexA]_old - value` to preserve
the sum, clamps each entry to a minimum positive floor `pmin` (the set entry is
clamped into `[pmin, old_A + old_B - pmin]`, which keeps the adjusted
complementary entry at or above the floor while preserving the sum), and is a
silent no-op when `indexA == indexB` or either index is outside the vector's
current length (indices are integers; a negative index, such as the `idxmm-1`
produced for the topmost master, is out of range). -/
def SetProportions (pmin : ℚ) (ps : List ℚ) (value : ℚ) (i j : ℤ) : List ℚ :=
  if i = j ∨ i < 0 ∨ j < 0 ∨ (ps.length : ℤ) ≤ i ∨ (ps.length : ℤ) ≤ j then ps
  else
    let a := ps.getD i.toNat 0
    let b := ps.getD j.toNat 0
    let pa := min (max value pmin) (a + b - pmin)
    let pb := a + b - pa
    (ps.set i.toNat pa).set j.toNat pb

/-- The resize directions passed to `UpdateProportions` (`store.Directions`,
declared outside the provided sources; its four boolean edge fields are used
directly by `layout/vertical.go`). -/
structure Directions where
  Left : Bool
  Right : Bool
  Top : Bool
  Bottom : Bool
deriving Repr, DecidableEq

/-- The manager state read and written by `VerticalLayout.UpdateProportions`:
the two client partitions (clients as window ids), the allowed counts and the
three proportion vectors. Per spec §3 the partitions are disjoint and their
union is the tracked client list. -/
structure Manager where
  masters : List ℕ
  slaves : List ℕ
  mmax : ℕ
  smax : ℕ
  MasterSlave : List ℚ
  MasterMaster : List ℚ
  SlaveSlave : List ℚ
deriving Repr, DecidableEq

/-- `Manager.Index` (spec §4.1): position of `c` in `list`, with `-1`
not-found semantics. -/
def goIndex (l : List ℕ) (c : ℕ) : ℤ :=
  if c ∈ l then (l.indexOf c : ℤ) else -1

/-- `VerticalLayout.UpdateProportions` (lines 124-185 of `layout/vertical.go`):
`dw`/`dh` are the desktop dimensions, `cw`/`ch` the client's outer geometry
width and height. Returns the manager with the updated proportion vectors.
The `%` on the wrapped index is Go's truncated remainder (`Int.tmod`). -/
def UpdateProportions (pmin : ℚ) (name : String) (m : Manager) (c : ℕ)
    (d : Directions) (dw dh cw ch gap : ℤ) : Manager :=
  let msize := min m.masters.length m.mmax
  let ssize := min m.slaves.length m.smax
  let d1 := if name = "vertical-left" then
      { d with Left := d.Right, Right := d.Left } else d
  let idxms : ℕ := (if name = "vertical-left" then 1 else 0)
      ^^^ (if c ∈ m.masters then 1 else 0)
  if c ∈ m.masters then
    let px := ((cw + 2 * gap : ℤ) : ℚ) / ((dw : ℤ) : ℚ)
    let py := ((ch : ℤ) : ℚ) / ((dh - ((msize : ℤ) + 1) * gap : ℤ) : ℚ)
    let idxmm : ℤ := Int.tmod (goIndex m.masters c) (m.mmax : ℤ)
    let ms := if d1.Left then
        SetProportions pmin m.MasterSlave px (idxms : ℤ) ((idxms ^^^ 1 : ℕ) : ℤ)
      else m.MasterSlave
    let mm := if d1.Top then
        SetProportions pmin m.MasterMaster py idxmm (idxmm - 1)
      else if d1.Bottom then
        SetProportions pmin m.MasterMaster py idxmm (idxmm + 1)
      else m.MasterMaster
    { m with MasterSlave := ms, MasterMaster := mm }
  else
    let px := ((cw + gap : ℤ) : ℚ) / ((dw : ℤ) : ℚ)
    let py := ((ch : ℤ) : ℚ) / ((dh - ((ssize : ℤ) + 1) * gap : ℤ) : ℚ)
    let idxss : ℤ := Int.tmod (goIndex m.slaves c) (m.smax : ℤ)
    let ms := if d1.Right then
        SetProportions pmin m.MasterSlave px (idxms : ℤ) ((idxms ^^^ 1 : ℕ) : ℤ)
      else m.MasterSlave
    let ss := if d1.Top then
        SetProportions pmin m.SlaveSlave py idxss (idxss - 1)
      else if d1.Bottom then
        SetProportions pmin m.SlaveSlave py idxss (idxss + 1)
      else m.SlaveSlave
    { m with MasterSlave := ms, SlaveSlave := ss }

/-- Frame extents of a client window (`ewmh.FrameExtents` as stored in
`Dimensions.Extents`, `store/client.go`). -/
structure FrameExtents where
  left : ℤ
  right : ℤ
  top : ℤ
  bottom : ℤ
deriving Repr, DecidableEq

/-- The parts of `store.Info` that `Client.MoveWindow` reads: the window
class, the EWMH states, the geometry, the decoration extents and the
position/size adjustment flags (`store/client.go` lines 36-52). -/
structure Info where
  cls : String
  states : List String
  geometry : Rect
  extents : FrameExtents
  adjPos : Bool
  adjSize : Bool
deriving Repr, DecidableEq

/-- `store.Client`: the latest window snapshot and the internal move lock
(`store/client.go` lines 28-34); `Original`/`Cached` are not read by
`MoveWindow` and are omitted. -/
structure Client where
  latest : Info
  locked : Bool
deriving Repr, DecidableEq

/-- A request issued to the windowing adapter (the `ewmh.*` calls made by
`Client.MoveWindow`, `Client.UnMaximize` and `Client.UnFullscreen`). -/
inductive XReq where
  | stateRemove : String → XReq
  | moveResize : ℤ → ℤ → ℤ → ℤ → XReq
  | move : ℤ → ℤ → XReq
deriving Repr, DecidableEq

/-- `store.IsMaximized` (`store/client.go` lines 528-530). -/
def IsMaximized (i : Info) : Bool :=
  i.states.contains "_NET_WM_STATE_MAXIMIZED_VERT"
    || i.states.contains "_NET_WM_STATE_MAXIMIZED_HORZ"

/-- `store.IsFullscreen` (`store/client.go` lines 524-526). -/
def IsFullscreen (i : Info) : Bool :=
  i.states.contains "_NET_WM_STATE_FULLSCREEN"

/-- `Client.Lock` (`store/client.go` lines 92-94). -/
def Lock (c : Client) : Client :=
  { c with locked := true }

/-- `Client.UnLock` (`store/client.go` lines 96-98). -/
def UnLock (c : Client) : Client :=
  { c with locked := false }

/-- `Client.MoveWindow` (`store/client.go` lines 224-257): when the client is
locked, the call only clears the lock and returns, issuing nothing; otherwise
it unmaximizes/unfullscreens as needed, applies the extents offsets selected
by the adjustment flags, issues one move or move-resize request, and refreshes
the `Latest` snapshot via `Client.Update` (which keeps the old snapshot when
the freshly queried window class is empty). `fetch` is the snapshot the
adapter returns for the `GetInfo` query inside `Update`. Returns the updated
client and the list of issued adapter requests. -/
def MoveWindow (fetch : Info) (c : Client) (x y w h : ℤ) : Client × List XReq :=
  if c.locked then
    (UnLock c, [])
  else
    let unmaxReqs := if IsMaximized c.latest then
        [XReq.stateRemove "_NET_WM_STATE_MAXIMIZED_VERT",
         XReq.stateRemove "_NET_WM_STATE_MAXIMIZED_HORZ"]
      else []
    let unfullReqs := if IsFullscreen c.latest then
        [XReq.stateRemove "_NET_WM_STATE_FULLSCREEN"] else []
    let ext := c.latest.extents
    let dx := if c.latest.adjPos then ext.left else 0
    let dy := if c.latest.adjPos then ext.top else 0
    let dw := if c.latest.adjSize then ext.left + ext.right else 0
    let dh := if c.latest.adjSize then ext.top + ext.bottom else 0
    let mreq := if 0 < w ∧ 0 < h then
        XReq.moveResize (x + dx) (y + dy) (w - dw) (h - dh)
      else XReq.move (x + dx) (y + dy)
    let latest1 := if fetch.cls = "" then c.latest else fetch
    ({ c with latest := latest1 }, unmaxReqs ++ unfullReqs ++ [mreq])

/-- The workspace state acted on by one placement pass: the layout input the
pass reads (manager partitions, proportions, desktop geometry) and the latest
client geometries it writes. `Do` reads only the former and writes only the
latter. -/
structure SysState where
  layout : LayoutInput
  geoms : List Rect
deriving Repr, DecidableEq

/-- One full `Do()` pass over a workspace: computes the rectangles from the
layout input and applies them as the clients' new geometries (via
`MoveResize`/`Update`), leaving the manager state untouched. -/
def DoPass (s : SysState) : SysState :=
  { s with geoms := (Do s.layout).1 ++ (Do s.layout).2 }

/-- The rectangles one `Do()` invocation issues on a workspace state. -/
def rectsOf (s : SysState) : List Rect :=
  (Do s.layout).1 ++ (Do s.layout).2

lemma goRound_eq_of (q : ℚ) (z : ℤ) (h0 : ¬ q < 0) (h2 : (z : ℚ) ≤ q + 1/2)
    (h3 : q + 1/2 < z + 1) : goRound q = z := by
  unfold goRound
  rw [if_neg h0, Int.floor_eq_iff]
  exact ⟨h2, h3⟩

lemma vl_ne_vr : ¬ (("vertical-left" : String) = "vertical-right") := by decide

/-! ## Claim theorems -/

/-- The spec's §8 scenario input: 1 master and 3 slaves, `MasterSlave`
`[0.6, 0.4]`, desktop `1920×1080` at origin, gap `5`, with the per-partition
proportions at their even splits. -/
def scenarioC5 : LayoutInput :=
  { name := "vertical-left", dx := 0, dy := 0, dw := 1920, dh := 1080, gap := 5,
    mmax := 1, smax := 3, nMasters := 1, nSlaves := 3,
    masterSlave := [3/5, 2/5], masterMaster := [1],
    slaveSlave := [1/3, 1/3, 1/3] }

/-- Claim C5: with 1 master and 3 slaves, `MasterSlave = [0.6, 0.4]`, desktop
1920×1080 and gap 5, `Do()` places the master spanning x from 5 to 1147
(0.6·1920 minus insets) and stacks the three slaves evenly in the remaining
column, each with height within rounding distance of `(1080 - 4*5)/3`. -/
theorem c5_scenario :
    (Do scenarioC5).1 = [Rect.mk 5 5 1142 1070]
    ∧ (Do scenarioC5).2 = [Rect.mk 1152 5 763 353, Rect.mk 1152 363 763 353,
        Rect.mk 1152 721 763 353]
    ∧ (∀ r ∈ (Do scenarioC5).1, r.x = 5 ∧ r.x + r.w = 1147)
    ∧ (∀ r ∈ (Do scenarioC5).2, |(r.h : ℚ) - (1080 - 4 * 5) / 3| ≤ 1/2) := by
  have h1 : goRound ((1152 : ℚ)) = 1152 :=
    goRound_eq_of _ _ (by norm_num) (by norm_num) (by norm_num)
  have h2 : goRound ((1070 : ℚ)) = 1070 :=
    goRound_eq_of _ _ (by norm_num) (by norm_num) (by norm_num)
  have h3 : goRound ((1060 : ℚ)/3) = 353 :=
    goRound_eq_of _ _ (by norm_num) (by norm_num) (by norm_num)
  have hDo : Do scenarioC5 = ([Rect.mk 5 5 1142 1070],
      [Rect.mk 1152 5 763 353, Rect.mk 1152 363 763 353, Rect.mk 1152 721 763 353]) := by
    norm_num [Do, scenarioC5, mwOf, tilePass, h1, h2, h3, vl_ne_vr]
  refine ⟨by rw [hDo], by rw [hDo], ?_, ?_⟩
  · rw [hDo]
    decide
  · rw [hDo]
    intro r hr
    simp only [List.mem_cons, List.not_mem_nil, or_false] at hr
    rcases hr with h | h | h <;> subst h <;> rw [abs_le] <;> constructor <;> norm_num

/-- Claim C7: `Do()` is idempotent — a placement pass reads only the manager
state and desktop geometry, which it never modifies, so re-running the pass
over the unchanged workspace yields identical rectangles, and a second pass
leaves the workspace state fixed. -/
theorem c7_idempotent (s : SysState) :
    rectsOf (DoPass s) = rectsOf s ∧ DoPass (DoPass s) = DoPass s := by
  constructor
  · rfl
  · rfl

lemma setProportions_sum (pmin : ℚ) (ps : List ℚ) (v : ℚ) (i j : ℤ) :
    (SetProportions pmin ps v i j).sum = ps.sum := by
  unfold SetProportions
  split
  · rfl
  · rename_i hcond
    push_neg at hcond
    obtain ⟨hij, hi0, hj0, hilen, hjlen⟩ := hcond
    have hij2 : i.toNat ≠ j.toNat := by omega
    have hilen2 : i.toNat < ps.length := by omega
    have hjlen2 : j.toNat < ps.length := by omega
    have hjlen3 : j.toNat < (ps.set i.toNat
        (min (max v pmin) (ps.getD i.toNat 0 + ps.getD j.toNat 0 - pmin))).length := by
      simpa using hjlen2
    rw [list_sum_set _ j.toNat hjlen3, list_sum_set _ i.toNat hilen2,
      list_getD_set_of_ne _ i.toNat j.toNat _ hij2]
    ring

/-- Claim C3: every `SetProportions` call preserves the proportion-vector sum
invariant — if the entries sum to 1 before the call, they sum to 1 after it,
the complementary entry absorbing exactly the amount taken from the set
entry. -/
theorem c3_sum_invariant (pmin : ℚ) (ps : List ℚ) (v : ℚ) (i j : ℤ)
    (hsum : ps.sum = 1) :
    (SetProportions pmin ps v i j).sum = 1 := by
  rw [setProportions_sum, hsum]

/-- Claim C3 witness. -/
theorem c3_sum_invariant_witness :
    ([1/2, 1/2] : List ℚ).sum = 1
    ∧ (SetProportions (1/100) [1/2, 1/2] (7/10) 0 1).sum = 1 :=
  ⟨by norm_num, c3_sum_invariant (1/100) [1/2, 1/2] (7/10) 0 1 (by norm_num)⟩

/-- Claim C10: a `MoveWindow` call on a locked client issues no adapter
request and leaves the `Latest` snapshot untouched; its only effect is
clearing the lock, so after a `Lock()` exactly one programmatic move is
discarded and the next `MoveWindow` issues its requests again. -/
theorem c10_locked_move (fetch : Info) (c : Client) (x y w h x2 y2 w2 h2 : ℤ)
    (hlock : c.locked = true) :
    (MoveWindow fetch c x y w h).2 = []
    ∧ (MoveWindow fetch c x y w h).1.latest = c.latest
    ∧ (MoveWindow fetch c x y w h).1.locked = false
    ∧ (MoveWindow fetch (MoveWindow fetch (Lock c) x y w h).1 x2 y2 w2 h2).2 ≠ [] := by
  have ha : MoveWindow fetch c x y w h = (UnLock c, []) := by
    unfold MoveWindow
    rw [if_pos hlock]
  have hb : MoveWindow fetch (Lock c) x y w h = (UnLock (Lock c), []) := by
    unfold MoveWindow
    simp [Lock]
  refine ⟨by rw [ha], by rw [ha]; rfl, by rw [ha]; rfl, ?_⟩
  rw [hb]
  show (MoveWindow fetch { c with locked := false } x2 y2 w2 h2).2 ≠ []
  unfold MoveWindow
  simp [List.append_eq_nil]

/-- Claim C10 witness. -/
theorem c10_locked_move_witness :
    (MoveWindow (Info.mk "term" [] (Rect.mk 0 0 10 10) (FrameExtents.mk 0 0 0 0)
        false false)
      (Client.mk (Info.mk "term" [] (Rect.mk 1 2 30 40) (FrameExtents.mk 0 0 0 0)
        false false) true) 3 4 50 60).2 = [] :=
  (c10_locked_move
    (Info.mk "term" [] (Rect.mk 0 0 10 10) (FrameExtents.mk 0 0 0 0) false false)
    (Client.mk (Info.mk "term" [] (Rect.mk 1 2 30 40) (FrameExtents.mk 0 0 0 0)
      false false) true) 3 4 50 60 0 0 0 0 rfl).1

/-- Claim C2: when exactly one of the master/slave partitions is empty, `Do()`
places every client of the non-empty partition spanning the full desktop width
minus gaps (`x = dx + gap`, `w = dw - 2*gap`); in particular a single client
with zero slaves occupies the full width. The `hfill` hypothesis reflects the
manager invariant that slaves only exist once the master partition is at its
allowed capacity, so a slave-free workspace has at most `mmax` masters. -/
theorem c2_empty_partition_full_width (l : LayoutInput)
    (hfill : l.nSlaves = 0 → l.nMasters ≤ l.mmax) :
    ((0 < l.nMasters ∧ l.nSlaves = 0) →
        ∀ r ∈ (Do l).1, r.x = l.dx + l.gap ∧ r.w = l.dw - 2 * l.gap)
    ∧ ((0 < l.nSlaves ∧ l.nMasters = 0) →
        ∀ r ∈ (Do l).2, r.x = l.dx + l.gap ∧ r.w = l.dw - 2 * l.gap) := by
  constructor
  · rintro ⟨hM, hS⟩ r hr
    have hss : min l.nSlaves l.smax = 0 := by omega
    have hswap : (l.name = "vertical-right" ∧ l.nMasters + l.nSlaves > l.mmax) = False := by
      apply eq_false
      rintro ⟨-, hgt⟩
      have := hfill hS
      omega
    by_cases hms : 0 < min l.nMasters l.mmax
    · simp only [Do, hss, hswap, if_false, and_true, if_pos hms, eq_self_iff_true] at hr
      exact tilePass_mem_xw l.mmax (min l.nMasters l.mmax) l.dy l.gap l.dh
        (l.dx + l.gap) (l.dw - 2 * l.gap) l.masterMaster l.nMasters 0 0 r hr
    · simp only [Do, if_neg hms] at hr
      simp at hr
  · rintro ⟨hS, hM⟩ r hr
    have hms : min l.nMasters l.mmax = 0 := by omega
    by_cases hss : 0 < min l.nSlaves l.smax
    · simp only [Do, hms, hss, lt_self_iff_false, false_and, and_true, if_false,
        if_true, eq_self_iff_true, and_self, if_pos hss] at hr
      have := tilePass_mem_xw l.smax (min l.nSlaves l.smax) l.dy l.gap l.dh
        (l.dx + l.gap) (l.dw - l.gap - l.gap) l.slaveSlave l.nSlaves 0 0 r hr
      refine ⟨this.1, ?_⟩
      rw [this.2]
      ring
    · simp only [Do, if_neg hss] at hr
      simp at hr

/-- Input for the C2 witness: one master, zero slaves. -/
def witnessInC2 : LayoutInput :=
  { name := "vertical-left", dx := 0, dy := 0, dw := 800, dh := 600,
    gap := 4, mmax := 2, smax := 2, nMasters := 1, nSlaves := 0,
    masterSlave := [1/2, 1/2], masterMaster := [1, 0],
    slaveSlave := [1/2, 1/2] }

/-- Claim C2 witness: the single master of `witnessInC2` spans the full width
minus gaps. -/
theorem c2_empty_partition_full_width_witness :
    (Rect.mk 4 4 792 592).x = 0 + 4 ∧ (Rect.mk 4 4 792 592).w = 800 - 2 * 4 := by
  have h592 : goRound ((592 : ℚ)) = 592 :=
    goRound_eq_of _ _ (by norm_num) (by norm_num) (by norm_num)
  have hDo : (Do witnessInC2).1 = [Rect.mk 4 4 792 592] := by
    norm_num [Do, witnessInC2, tilePass, mwOf, h592, vl_ne_vr]
  exact (c2_empty_partition_full_width witnessInC2
      (fun _ => by norm_num [witnessInC2])).1
    ⟨by norm_num [witnessInC2], rfl⟩ (Rect.mk 4 4 792 592) (by rw [hDo]; simp)

/-- Claim C6: an `UpdateProportions` call whose directions have `Top` and
`Bottom` unset (only the master/slave column boundary can have moved) leaves
`MasterMaster` and `SlaveSlave` entirely unchanged; and if additionally the
moved edge is not the cross-partition boundary for this client (after the
vertical-left mirror swap of `Left`/`Right`), no proportion vector changes at
all. -/
theorem c6_lateral_only_masterslave (pmin : ℚ) (name : String) (m : Manager)
    (c : ℕ) (d : Directions) (dw dh cw ch gap : ℤ)
    (hTop : d.Top = false) (hBottom : d.Bottom = false) :
    (UpdateProportions pmin name m c d dw dh cw ch gap).MasterMaster = m.MasterMaster
    ∧ (UpdateProportions pmin name m c d dw dh cw ch gap).SlaveSlave = m.SlaveSlave
    ∧ (((c ∈ m.masters → (if name = "vertical-left" then d.Right else d.Left) = false)
        ∧ (c ∉ m.masters → (if name = "vertical-left" then d.Left else d.Right) = false))
      → UpdateProportions pmin name m c d dw dh cw ch gap = m) := by
  by_cases hc : c ∈ m.masters
  · by_cases hn : name = "vertical-left"
    · refine ⟨?_, ?_, ?_⟩
      · simp [UpdateProportions, hc, hn, hTop, hBottom]
      · simp [UpdateProportions, hc, hn, hTop, hBottom]
      · rintro ⟨hA, -⟩
        have hR : d.Right = false := by simpa [hn] using hA hc
        simp [UpdateProportions, hc, hn, hTop, hBottom, hR]
    · refine ⟨?_, ?_, ?_⟩
      · simp [UpdateProportions, hc, hn, hTop, hBottom]
      · simp [UpdateProportions, hc, hn, hTop, hBottom]
      · rintro ⟨hA, -⟩
        have hL : d.Left = false := by simpa [hn] using hA hc
        simp [UpdateProportions, hc, hn, hTop, hBottom, hL]
  · by_cases hn : name = "vertical-left"
    · refine ⟨?_, ?_, ?_⟩
      · simp [UpdateProportions, hc, hn, hTop, hBottom]
      · simp [UpdateProportions, hc, hn, hTop, hBottom]
      · rintro ⟨-, hB⟩
        have hL : d.Left = false := by simpa [hn] using hB hc
        simp [UpdateProportions, hc, hn, hTop, hBottom, hL]
    · refine ⟨?_, ?_, ?_⟩
      · simp [UpdateProportions, hc, hn, hTop, hBottom]
      · simp [UpdateProportions, hc, hn, hTop, hBottom]
      · rintro ⟨-, hB⟩
        have hR : d.Right = false := by simpa [hn] using hB hc
        simp [UpdateProportions, hc, hn, hTop, hBottom, hR]

/-- Manager for the C6/C9 witnesses: two masters, two slaves. -/
def witnessMgr : Manager :=
  { masters := [10, 11], slaves := [20, 21], mmax := 2, smax := 2,
    MasterSlave := [1/2, 1/2], MasterMaster := [1/2, 1/2],
    SlaveSlave := [1/2, 1/2] }

/-- Claim C6 witness. -/
theorem c6_lateral_only_masterslave_witness :
    UpdateProportions (1/100) "vertical-left" witnessMgr 10
        (Directions.mk true false false false) 1920 1080 900 500 5 = witnessMgr :=
  (c6_lateral_only_masterslave (1/100) "vertical-left" witnessMgr 10
      (Directions.mk true false false false) 1920 1080 900 500 5 rfl rfl).2.2
    ⟨fun _ => by norm_num, fun hno => absurd (by norm_num [witnessMgr]) hno⟩

/-- Claim C9: an `UpdateProportions` call fully determines the intra-partition
proportion update: for a master, `MasterMaster` becomes `SetProportions` of
the client's height fraction `ch / (dh - (msize+1)*gap)` at the wrapped index
`indexOf(c) % mmax`, paired with the index above for `Top` or below for
`Bottom` (and is unchanged otherwise), while `SlaveSlave` is untouched; for a
slave, symmetrically on `SlaveSlave` with `ssize`, `smax` and the slave list,
while `MasterMaster` is untouched. -/
theorem c9_neighbor_resize (pmin : ℚ) (name : String) (m : Manager)
    (c : ℕ) (d : Directions) (dw dh cw ch gap : ℤ)
    (htracked : c ∈ m.masters ∨ c ∈ m.slaves) :
    ((UpdateProportions pmin name m c d dw dh cw ch gap).MasterMaster
      = if c ∈ m.masters then
          (if d.Top then
            SetProportions pmin m.MasterMaster
              ((ch : ℚ) / ((dh - ((min m.masters.length m.mmax : ℕ) + 1 : ℤ) * gap : ℤ) : ℚ))
              (Int.tmod (m.masters.indexOf c : ℤ) (m.mmax : ℤ))
              (Int.tmod (m.masters.indexOf c : ℤ) (m.mmax : ℤ) - 1)
          else if d.Bottom then
            SetProportions pmin m.MasterMaster
              ((ch : ℚ) / ((dh - ((min m.masters.length m.mmax : ℕ) + 1 : ℤ) * gap : ℤ) : ℚ))
              (Int.tmod (m.masters.indexOf c : ℤ) (m.mmax : ℤ))
              (Int.tmod (m.masters.indexOf c : ℤ) (m.mmax : ℤ) + 1)
          else m.MasterMaster)
        else m.MasterMaster)
    ∧ ((UpdateProportions pmin name m c d dw dh cw ch gap).SlaveSlave
      = if c ∈ m.masters then m.SlaveSlave
        else
          (if d.Top then
            SetProportions pmin m.SlaveSlave
              ((ch : ℚ) / ((dh - ((min m.slaves.length m.smax : ℕ) + 1 : ℤ) * gap : ℤ) : ℚ))
              (Int.tmod (m.slaves.indexOf c : ℤ) (m.smax : ℤ))
              (Int.tmod (m.slaves.indexOf c : ℤ) (m.smax : ℤ) - 1)
          else if d.Bottom then
            SetProportions pmin m.SlaveSlave
              ((ch : ℚ) / ((dh - ((min m.slaves.length m.smax : ℕ) + 1 : ℤ) * gap : ℤ) : ℚ))
              (Int.tmod (m.slaves.indexOf c : ℤ) (m.smax : ℤ))
              (Int.tmod (m.slaves.indexOf c : ℤ) (m.smax : ℤ) + 1)
          else m.SlaveSlave)) := by
  by_cases hc : c ∈ m.masters
  · constructor
    · simp [UpdateProportions, hc, goIndex, apply_ite Directions.Top,
        apply_ite Directions.Bottom]
    · simp [UpdateProportions, hc]
  · have hcs : c ∈ m.slaves := htracked.resolve_left hc
    constructor
    · simp [UpdateProportions, hc]
    · simp [UpdateProportions, hc, hcs, goIndex, apply_ite Directions.Top,
        apply_ite Directions.Bottom]

/-- Claim C9 witness: resizing the second master's top edge pairs index 1 with
index 0 at the height fraction `500 / (1080 - 3*5)`. -/
theorem c9_neighbor_resize_witness :
    (UpdateProportions (1/100) "vertical-left" witnessMgr 11
        (Directions.mk false false true false) 1920 1080 900 500 5).MasterMaster
      = SetProportions (1/100) [1/2, 1/2] ((500 : ℚ) / 1065) 1 0 := by
  have h := (c9_neighbor_resize (1/100) "vertical-left" witnessMgr 11
      (Directions.mk false false true false) 1920 1080 900 500 5
      (Or.inl (by norm_num [witnessMgr]))).1
  rw [h]
  norm_num [witnessMgr, show Int.tmod 1 2 = 1 from by decide]

/-- Claim C4: with the same manager state, `vertical-right` places the master
column and slave column on swapped sides of the same boundary
`dx + round(dw * MasterSlave[0])` computed by the identical proportion math,
leaving every client's vertical position and height unchanged: the mirror
direction only changes the `x`/`w` placement parameters inside `Do()`. The
hypotheses state that the master partition is at its allowed capacity and at
least one slave exists (per the manager's fill-first invariant, the only way
both partitions are non-empty). -/
theorem c4_mirror_placement (l : LayoutInput)
    (hname : l.name = "vertical-left") (hM : l.nMasters = l.mmax)
    (h0 : 0 < l.mmax) (hS : 0 < l.nSlaves) (hsm : 0 < l.smax) :
    (Do { l with name := "vertical-right" }).1
      = (Do l).1.map (fun r =>
          Rect.mk (l.dx + mwOf l + l.gap) r.y (l.dw - mwOf l - 2 * l.gap) r.h)
    ∧ (Do { l with name := "vertical-right" }).2
      = (Do l).2.map (fun r => Rect.mk (l.dx + l.gap) r.y (mwOf l - l.gap) r.h) := by
  have hms : 0 < min l.nMasters l.mmax := by omega
  have hms0 : ¬ (min l.nMasters l.mmax = 0) := by omega
  have hss : 0 < min l.nSlaves l.smax := by omega
  have hss0 : ¬ (min l.nSlaves l.smax = 0) := by omega
  have hgt : l.nMasters + l.nSlaves > l.mmax := by omega
  have hL1 : (Do l).1 = tilePass l.mmax (min l.nMasters l.mmax) l.dy l.gap l.dh
      (l.dx + l.gap) (mwOf l - 2 * l.gap) l.masterMaster l.nMasters 0 0 := by
    simp [Do, hname, vl_ne_vr, hms, hms0, hss, hss0]
  have hL2 : (Do l).2 = tilePass l.smax (min l.nSlaves l.smax) l.dy l.gap l.dh
      (l.dx + mwOf l) (l.dw - mwOf l - l.gap) l.slaveSlave l.nSlaves 0 0 := by
    simp [Do, hname, vl_ne_vr, hms, hms0, hss, hss0]
  have hR1 : (Do { l with name := "vertical-right" }).1
      = tilePass l.mmax (min l.nMasters l.mmax) l.dy l.gap l.dh
        (l.dx + mwOf l + l.gap) (l.dw - mwOf l - 2 * l.gap) l.masterMaster
        l.nMasters 0 0 := by
    simp [Do, hms, hms0, hss, hss0, hgt, mwOf]
  have hR2 : (Do { l with name := "vertical-right" }).2
      = tilePass l.smax (min l.nSlaves l.smax) l.dy l.gap l.dh
        (l.dx + l.gap) (mwOf l - l.gap) l.slaveSlave l.nSlaves 0 0 := by
    simp [Do, hms, hms0, hss, hss0, hgt, mwOf]
  constructor
  · rw [hR1, hL1]
    exact tilePass_map_xw l.mmax (min l.nMasters l.mmax) l.dy l.gap l.dh
      (l.dx + l.gap) (mwOf l - 2 * l.gap) (l.dx + mwOf l + l.gap)
      (l.dw - mwOf l - 2 * l.gap) l.masterMaster l.nMasters 0 0
  · rw [hR2, hL2]
    exact tilePass_map_xw l.smax (min l.nSlaves l.smax) l.dy l.gap l.dh
      (l.dx + mwOf l) (l.dw - mwOf l - l.gap) (l.dx + l.gap) (mwOf l - l.gap)
      l.slaveSlave l.nSlaves 0 0

lemma int_cast_list_sum (hs : List ℤ) :
    ((hs.sum : ℤ) : ℚ) = (hs.map (fun z : ℤ => (z : ℚ))).sum := by
  induction hs with
  | nil => simp
  | cons h t ih => simp [ih]

lemma list_sum_map_mul_left (l : List ℚ) (b : ℚ) :
    (l.map (fun x => b * x)).sum = b * l.sum := by
  induction l with
  | nil => simp
  | cons p ps ih => simp [ih]; ring

/-- Claim C8 column fact: under the fill-first no-wrap conditions the master
rectangles of `Do` form a stack whose heights are the independently rounded
`goRound(H * p)` values. -/
lemma do_masters_stack (l : LayoutInput)
    (hM : 0 < l.nMasters) (hMm : l.nMasters ≤ l.mmax)
    (hMlen : l.nMasters ≤ l.masterMaster.length) :
    ∃ x w, (Do l).1 = stackFrom x w l.gap (l.dy + l.gap)
      ((l.masterMaster.take l.nMasters).map (fun p =>
        goRound (((l.dh - ((l.nMasters : ℤ) + 1) * l.gap : ℤ) : ℚ) * p))) := by
  have hms : 0 < min l.nMasters l.mmax := by omega
  have hmine : min l.nMasters l.mmax = l.nMasters := by omega
  have hx : ∃ x w, (Do l).1 = tilePass l.mmax (min l.nMasters l.mmax) l.dy l.gap l.dh
      x w l.masterMaster l.nMasters 0 0 := by
    simp [Do, hms]
    exact ⟨_, _, rfl⟩
  obtain ⟨x, w, hx⟩ := hx
  rw [hmine] at hx
  rw [tilePass_closed l.mmax l.nMasters l.dy l.gap l.dh x w l.masterMaster
    hMm hM hMlen] at hx
  exact ⟨x, w, hx⟩

/-- Claim C8 column fact, slave side. -/
lemma do_slaves_stack (l : LayoutInput)
    (hS : 0 < l.nSlaves) (hSm : l.nSlaves ≤ l.smax)
    (hSlen : l.nSlaves ≤ l.slaveSlave.length) :
    ∃ x w, (Do l).2 = stackFrom x w l.gap (l.dy + l.gap)
      ((l.slaveSlave.take l.nSlaves).map (fun p =>
        goRound (((l.dh - ((l.nSlaves : ℤ) + 1) * l.gap : ℤ) : ℚ) * p))) := by
  have hss : 0 < min l.nSlaves l.smax := by omega
  have hsine : min l.nSlaves l.smax = l.nSlaves := by omega
  have hx : ∃ x w, (Do l).2 = tilePass l.smax (min l.nSlaves l.smax) l.dy l.gap l.dh
      x w l.slaveSlave l.nSlaves 0 0 := by
    simp [Do, hss]
    exact ⟨_, _, rfl⟩
  obtain ⟨x, w, hx⟩ := hx
  rw [hsine] at hx
  rw [tilePass_closed l.smax l.nSlaves l.dy l.gap l.dh x w l.slaveSlave
    hSm hS hSlen] at hx
  exact ⟨x, w, hx⟩

/-- The accumulated-drift equation for one stacked column: the bottom edge of
the last rectangle deviates from the exact column bottom `dy + dh - gap` by
exactly the sum of the per-height rounding residuals. -/
lemma stack_drift (x w gap dy dh : ℤ) (props : List ℚ) (n : ℕ) (hn : 0 < n)
    (hlen : n ≤ props.length) (hsum : (props.take n).sum = 1) :
    (((stackFrom x w gap (dy + gap)
        ((props.take n).map (fun p =>
          goRound (((dh - ((n : ℤ) + 1) * gap : ℤ) : ℚ) * p)))).getD (n - 1)
            (Rect.mk 0 0 0 0)).y
      + ((stackFrom x w gap (dy + gap)
        ((props.take n).map (fun p =>
          goRound (((dh - ((n : ℤ) + 1) * gap : ℤ) : ℚ) * p)))).getD (n - 1)
            (Rect.mk 0 0 0 0)).h : ℚ)
      - ((dy + dh - gap : ℤ) : ℚ)
      = ((props.take n).map (fun p =>
          ((goRound (((dh - ((n : ℤ) + 1) * gap : ℤ) : ℚ) * p) : ℤ) : ℚ)
            - ((dh - ((n : ℤ) + 1) * gap : ℤ) : ℚ) * p)).sum := by
  have hlen2 : ((props.take n).map (fun p =>
      goRound (((dh - ((n : ℤ) + 1) * gap : ℤ) : ℚ) * p))).length = n := by
    simp [List.length_take]
    omega
  have hne : ((props.take n).map (fun p =>
      goRound (((dh - ((n : ℤ) + 1) * gap : ℤ) : ℚ) * p))) ≠ [] := by
    intro hcon
    rw [hcon] at hlen2
    simp at hlen2
    omega
  have hbot := stackFrom_last_bottom x w gap (Rect.mk 0 0 0 0)
    ((props.take n).map (fun p =>
      goRound (((dh - ((n : ℤ) + 1) * gap : ℤ) : ℚ) * p))) (dy + gap) hne
  rw [hlen2] at hbot
  have hcast : ∀ a b : ℤ, a = b → (a : ℚ) = (b : ℚ) := fun a b hab => by rw [hab]
  have hsub := list_sum_map_sub (props.take n)
    (fun p => ((goRound (((dh - ((n : ℤ) + 1) * gap : ℤ) : ℚ) * p) : ℤ) : ℚ))
    (fun p => ((dh - ((n : ℤ) + 1) * gap : ℤ) : ℚ) * p)
  rw [hsub]
  have hmul : ((props.take n).map (fun p =>
      ((dh - ((n : ℤ) + 1) * gap : ℤ) : ℚ) * p)).sum
      = ((dh - ((n : ℤ) + 1) * gap : ℤ) : ℚ) * (props.take n).sum :=
    list_sum_map_mul_left (props.take n) _
  rw [hmul, hsum, mul_one]
  have hbotq := hcast _ _ hbot
  push_cast at hbotq ⊢
  simp only [List.map_map, Function.comp_def] at hbotq ⊢
  linarith [hbotq]

/-- Claim C8: `Do()` converts fractional proportions to pixel heights by
round-to-nearest (`math.Round`, half away from zero), each client's height
carrying only its own rounding residual (no redistribution), so the residual
drift of a row accumulates into the last client: the bottom edge of the last
client deviates from the exact column bottom `dy + dh - gap` by exactly the
sum of all per-client rounding residuals. Stated for both the master and the
slave row under the no-wrap conditions. -/
theorem c8_rounding_drift (l : LayoutInput)
    (hM : 0 < l.nMasters) (hMm : l.nMasters ≤ l.mmax)
    (hMlen : l.nMasters ≤ l.masterMaster.length)
    (hS : 0 < l.nSlaves) (hSm : l.nSlaves ≤ l.smax)
    (hSlen : l.nSlaves ≤ l.slaveSlave.length)
    (hMsum : (l.masterMaster.take l.nMasters).sum = 1)
    (hSsum : (l.slaveSlave.take l.nSlaves).sum = 1) :
    ((Do l).1.map Rect.h = (l.masterMaster.take l.nMasters).map (fun p =>
        goRound (((l.dh - ((l.nMasters : ℤ) + 1) * l.gap : ℤ) : ℚ) * p)))
    ∧ (∀ p ∈ l.masterMaster.take l.nMasters,
        |((goRound (((l.dh - ((l.nMasters : ℤ) + 1) * l.gap : ℤ) : ℚ) * p) : ℤ) : ℚ)
          - ((l.dh - ((l.nMasters : ℤ) + 1) * l.gap : ℤ) : ℚ) * p| ≤ 1/2)
    ∧ ((((Do l).1.getD (l.nMasters - 1) (Rect.mk 0 0 0 0)).y
          + ((Do l).1.getD (l.nMasters - 1) (Rect.mk 0 0 0 0)).h : ℚ)
        - ((l.dy + l.dh - l.gap : ℤ) : ℚ)
        = ((l.masterMaster.take l.nMasters).map (fun p =>
            ((goRound (((l.dh - ((l.nMasters : ℤ) + 1) * l.gap : ℤ) : ℚ) * p) : ℤ) : ℚ)
              - ((l.dh - ((l.nMasters : ℤ) + 1) * l.gap : ℤ) : ℚ) * p)).sum)
    ∧ ((Do l).2.map Rect.h = (l.slaveSlave.take l.nSlaves).map (fun p =>
        goRound (((l.dh - ((l.nSlaves : ℤ) + 1) * l.gap : ℤ) : ℚ) * p)))
    ∧ ((((Do l).2.getD (l.nSlaves - 1) (Rect.mk 0 0 0 0)).y
          + ((Do l).2.getD (l.nSlaves - 1) (Rect.mk 0 0 0 0)).h : ℚ)
        - ((l.dy + l.dh - l.gap : ℤ) : ℚ)
        = ((l.slaveSlave.take l.nSlaves).map (fun p =>
            ((goRound (((l.dh - ((l.nSlaves : ℤ) + 1) * l.gap : ℤ) : ℚ) * p) : ℤ) : ℚ)
              - ((l.dh - ((l.nSlaves : ℤ) + 1) * l.gap : ℤ) : ℚ) * p)).sum) := by
  obtain ⟨xm, wm, hm⟩ := do_masters_stack l hM hMm hMlen
  obtain ⟨xs, ws, hs⟩ := do_slaves_stack l hS hSm hSlen
  refine ⟨?_, ?_, ?_, ?_, ?_⟩
  · rw [hm, stackFrom_map_h]
  · intro p _
    exact abs_goRound_sub_le _
  · rw [hm]
    exact stack_drift xm wm l.gap l.dy l.dh l.masterMaster l.nMasters hM hMlen hMsum
  · rw [hs, stackFrom_map_h]
  · rw [hs]
    exact stack_drift xs ws l.gap l.dy l.dh l.slaveSlave l.nSlaves hS hSlen hSsum

section ColumnLemmas

lemma heights_nonneg (props : List ℚ) (nc : ℕ) (gap dh : ℤ)
    (hpos : ∀ p ∈ props, 0 ≤ p) (hdh : ((nc : ℤ) + 1) * gap ≤ dh) :
    ∀ h ∈ (props.take nc).map (fun p =>
      goRound (((dh - ((nc : ℤ) + 1) * gap : ℤ) : ℚ) * p)), 0 ≤ h := by
  intro h hh
  simp only [List.mem_map] at hh
  obtain ⟨p, hp, rfl⟩ := hh
  apply goRound_nonneg
  apply mul_nonneg
  · have : (0 : ℤ) ≤ dh - ((nc : ℤ) + 1) * gap := by omega
    exact_mod_cast this
  · exact hpos p (List.mem_of_mem_take hp)

lemma heights_sum_le (props : List ℚ) (nc : ℕ) (gap dh : ℤ)
    (hsum : (props.take nc).sum = 1) :
    (((((props.take nc).map (fun p =>
        goRound (((dh - ((nc : ℤ) + 1) * gap : ℤ) : ℚ) * p))).sum : ℤ) : ℚ)
      ≤ ((dh - ((nc : ℤ) + 1) * gap : ℤ) : ℚ) + (nc : ℚ)/2)
    ∧ (((dh - ((nc : ℤ) + 1) * gap : ℤ) : ℚ) - (nc : ℚ)/2
      ≤ ((((props.take nc).map (fun p =>
          goRound (((dh - ((nc : ℤ) + 1) * gap : ℤ) : ℚ) * p))).sum : ℤ) : ℚ)) := by
  have hmm : ((props.take nc).map (fun p =>
      goRound (((dh - ((nc : ℤ) + 1) * gap : ℤ) : ℚ) * p)))
      = (((props.take nc).map (fun p =>
          ((dh - ((nc : ℤ) + 1) * gap : ℤ) : ℚ) * p)).map goRound) := by
    rw [List.map_map]
    rfl
  have hqsum : ((props.take nc).map (fun p =>
      ((dh - ((nc : ℤ) + 1) * gap : ℤ) : ℚ) * p)).sum
      = ((dh - ((nc : ℤ) + 1) * gap : ℤ) : ℚ) := by
    rw [list_sum_map_mul_left, hsum, mul_one]
  have hqlen : ((props.take nc).map (fun p =>
      ((dh - ((nc : ℤ) + 1) * gap : ℤ) : ℚ) * p)).length = (props.take nc).length := by
    simp
  constructor
  · rw [hmm]
    have := sum_map_goRound_le ((props.take nc).map (fun p =>
      ((dh - ((nc : ℤ) + 1) * gap : ℤ) : ℚ) * p))
    rw [hqsum, hqlen] at this
    have hlen3 : ((props.take nc).length : ℚ) ≤ (nc : ℚ) := by
      have := List.length_take_le nc props
      exact_mod_cast this
    linarith
  · rw [hmm]
    have := le_sum_map_goRound ((props.take nc).map (fun p =>
      ((dh - ((nc : ℤ) + 1) * gap : ℤ) : ℚ) * p))
    rw [hqsum, hqlen] at this
    have hlen3 : ((props.take nc).length : ℚ) ≤ (nc : ℚ) := by
      have := List.length_take_le nc props
      exact_mod_cast this
    linarith

lemma column_contain_bound (x w gap dy dh : ℤ) (props : List ℚ) (nc N : ℕ)
    (hncN : nc ≤ N) (hlen : nc ≤ props.length)
    (hpos : ∀ p ∈ props, 0 ≤ p)
    (hgap : 0 ≤ gap) (hdh : ((N : ℤ) + 1) * gap ≤ dh)
    (hsum : (props.take nc).sum = 1) :
    ∀ r ∈ stackFrom x w gap (dy + gap) ((props.take nc).map (fun p =>
        goRound (((dh - ((nc : ℤ) + 1) * gap : ℤ) : ℚ) * p))),
      dy + gap ≤ r.y ∧ 0 ≤ r.h
      ∧ ((r.y : ℚ) + (r.h : ℚ) ≤ (dy : ℚ) + (dh : ℚ) - (gap : ℚ) + (N : ℚ)/2) := by
  intro r hr
  have hdh2 : ((nc : ℤ) + 1) * gap ≤ dh := by
    have h1 : ((nc : ℤ) + 1) * gap ≤ ((N : ℤ) + 1) * gap := by
      apply mul_le_mul_of_nonneg_right _ hgap
      have : (nc : ℤ) ≤ (N : ℤ) := by exact_mod_cast hncN
      omega
    omega
  have hnn := heights_nonneg props nc gap dh hpos hdh2
  have hb := stackFrom_mem_bounds x w gap hgap _ (dy + gap) hnn r hr
  refine ⟨hb.1, hb.2.1, ?_⟩
  have hlenhs : ((props.take nc).map (fun p =>
      goRound (((dh - ((nc : ℤ) + 1) * gap : ℤ) : ℚ) * p))).length = nc := by
    simp [List.length_take]
    omega
  have hb3 := hb.2.2
  rw [hlenhs] at hb3
  have hsle := (heights_sum_le props nc gap dh hsum).1
  have hb3q : ((r.y + r.h : ℤ) : ℚ) ≤ ((dy + gap
      + ((props.take nc).map (fun p =>
          goRound (((dh - ((nc : ℤ) + 1) * gap : ℤ) : ℚ) * p))).sum
      + gap * ((nc : ℤ) - 1) : ℤ) : ℚ) := Int.cast_le.mpr hb3
  have hNle : (nc : ℚ) ≤ (N : ℚ) := by exact_mod_cast hncN
  push_cast at hb3q hsle ⊢
  linarith

lemma column_sum_abs (props : List ℚ) (nc : ℕ) (gap dh : ℤ)
    (hsum : (props.take nc).sum = 1) :
    |((((props.take nc).map (fun p =>
        goRound (((dh - ((nc : ℤ) + 1) * gap : ℤ) : ℚ) * p))).sum : ℤ) : ℚ)
      + ((nc : ℚ) + 1) * (gap : ℚ) - (dh : ℚ)| ≤ (nc : ℚ)/2 := by
  have h1 := (heights_sum_le props nc gap dh hsum).1
  have h2 := (heights_sum_le props nc gap dh hsum).2
  rw [abs_le]
  push_cast at h1 h2 ⊢
  constructor <;> linarith

end ColumnLemmas

/-- Counterexample input for claim C1: two masters at proportion 1/2 each on a
desktop of height 10 with gap 1, so each height is `round(3.5) = 4` and the
second master's bottom edge lands one pixel past `dy + dh - gap`. -/
def cexInC1 : LayoutInput :=
  { name := "vertical-left", dx := 0, dy := 0, dw := 100, dh := 10, gap := 1,
    mmax := 2, smax := 1, nMasters := 2, nSlaves := 0,
    masterSlave := [1/2, 1/2], masterMaster := [1/2, 1/2], slaveSlave := [1] }

/-- Claim C1 counterexample: with client count `2 ≤ Masters.Allowed +
Slaves.Allowed`, proportions summing to 1, desktop height 10 and gap 1, `Do()`
produces a rectangle whose bottom edge (10) lies outside the desktop rectangle
minus the gap (bottom 9): per-client round-to-nearest makes the rounded
heights sum to 8 > 7, so strict containment fails as stated. -/
theorem c1_counterexample :
    cexInC1.nMasters + cexInC1.nSlaves ≤ cexInC1.mmax + cexInC1.smax
    ∧ (cexInC1.masterMaster.take cexInC1.nMasters).sum = 1
    ∧ ¬ (∀ r ∈ (Do cexInC1).1 ++ (Do cexInC1).2,
        r.y + r.h ≤ cexInC1.dy + cexInC1.dh - cexInC1.gap) := by
  have h50 : goRound ((50 : ℚ)) = 50 :=
    goRound_eq_of _ _ (by norm_num) (by norm_num) (by norm_num)
  have h35 : goRound ((7 : ℚ)/2) = 4 :=
    goRound_eq_of _ _ (by norm_num) (by norm_num) (by norm_num)
  have hDo : Do cexInC1 = ([Rect.mk 1 1 98 4, Rect.mk 1 6 98 4], []) := by
    norm_num [Do, cexInC1, mwOf, tilePass, h50, h35, vl_ne_vr]
  refine ⟨by norm_num [cexInC1], by norm_num [cexInC1], ?_⟩
  intro hall
  have := hall (Rect.mk 1 6 98 4) (by rw [hDo]; simp)
  norm_num [cexInC1] at this

/-- Claim C1 (amended): for a fill-first client partition with
`n ≤ Masters.Allowed + Slaves.Allowed`, a nonnegative gap that fits the
desktop, a master column width between `gap` and `dw`, and per-partition
proportions that are nonnegative and sum to 1 over the visible clients, one
vertical-left `Do()` pass produces `n` pairwise non-overlapping rectangles;
each rectangle lies inside the desktop minus the gap horizontally and starts
at or below `dy + gap` with nonnegative height, while its bottom edge can
exceed `dy + dh - gap` only by the accumulated rounding tolerance `n/2`
pixels; and the union reconstructs the desktop within rounding tolerance:
each column's heights plus gaps reproduce `dh` within `size/2`, and when both
partitions are visible the two columns plus gaps tile the full width exactly,
meeting at `dx + round(dw * MasterSlave[0])`. -/
theorem c1_amended (l : LayoutInput) (n : ℕ)
    (hname : l.name = "vertical-left")
    (hfillM : l.nMasters = min n l.mmax)
    (hfillS : l.nSlaves = n - l.nMasters)
    (hn : n ≤ l.mmax + l.smax)
    (hmmax : 0 < l.mmax) (hsmax : 0 < l.smax)
    (hgap : 0 ≤ l.gap)
    (hdh : ((n : ℤ) + 1) * l.gap ≤ l.dh)
    (hmw1 : l.gap ≤ mwOf l) (hmw2 : mwOf l ≤ l.dw)
    (hMlen : l.nMasters ≤ l.masterMaster.length)
    (hMpos : ∀ p ∈ l.masterMaster, 0 ≤ p)
    (hMsum : 0 < l.nMasters → (l.masterMaster.take l.nMasters).sum = 1)
    (hSlen : l.nSlaves ≤ l.slaveSlave.length)
    (hSpos : ∀ p ∈ l.slaveSlave, 0 ≤ p)
    (hSsum : 0 < l.nSlaves → (l.slaveSlave.take l.nSlaves).sum = 1) :
    ((Do l).1 ++ (Do l).2).length = n
    ∧ List.Pairwise Rect.disjoint ((Do l).1 ++ (Do l).2)
    ∧ (∀ r ∈ (Do l).1 ++ (Do l).2,
        l.dx + l.gap ≤ r.x ∧ r.x + r.w ≤ l.dx + l.dw - l.gap
        ∧ l.dy + l.gap ≤ r.y ∧ 0 ≤ r.h
        ∧ ((r.y : ℚ) + (r.h : ℚ)
            ≤ (l.dy : ℚ) + (l.dh : ℚ) - (l.gap : ℚ) + (n : ℚ)/2))
    ∧ (0 < l.nMasters →
        |((((Do l).1.map Rect.h).sum : ℤ) : ℚ)
          + ((l.nMasters : ℚ) + 1) * (l.gap : ℚ) - (l.dh : ℚ)|
          ≤ (l.nMasters : ℚ)/2)
    ∧ (0 < l.nSlaves →
        |((((Do l).2.map Rect.h).sum : ℤ) : ℚ)
          + ((l.nSlaves : ℚ) + 1) * (l.gap : ℚ) - (l.dh : ℚ)|
          ≤ (l.nSlaves : ℚ)/2)
    ∧ (0 < l.nMasters → 0 < l.nSlaves →
        (∀ r ∈ (Do l).1, r.x = l.dx + l.gap
          ∧ r.x + r.w + l.gap = l.dx + mwOf l)
        ∧ (∀ r ∈ (Do l).2, r.x = l.dx + mwOf l
          ∧ r.x + r.w + l.gap = l.dx + l.dw)) := by
  have hMm : l.nMasters ≤ l.mmax := by omega
  have hMn : l.nMasters ≤ n := by omega
  have hSm : l.nSlaves ≤ l.smax := by omega
  have hSn : l.nSlaves ≤ n := by omega
  by_cases hM0 : l.nMasters = 0
  · have hn0 : n = 0 := by omega
    have hS0 : l.nSlaves = 0 := by omega
    have h1 : (Do l).1 = [] := by simp [Do, hM0]
    have h2 : (Do l).2 = [] := by simp [Do, hS0]
    rw [h1, h2]
    refine ⟨by simp [hn0], by simp, by simp, ?_, ?_, ?_⟩
    · intro hc
      exact absurd hc (by omega)
    · intro hc
      exact absurd hc (by omega)
    · intro hc
      exact absurd hc (by omega)
  · have hM : 0 < l.nMasters := by omega
    have hms : 0 < min l.nMasters l.mmax := by omega
    have hmine : min l.nMasters l.mmax = l.nMasters := by omega
    have hsum1 := hMsum hM
    have hdh2M : ((l.nMasters : ℤ) + 1) * l.gap ≤ l.dh := by
      have h1 : ((l.nMasters : ℤ) + 1) * l.gap ≤ ((n : ℤ) + 1) * l.gap := by
        apply mul_le_mul_of_nonneg_right _ hgap
        have : (l.nMasters : ℤ) ≤ (n : ℤ) := by exact_mod_cast hMn
        omega
      omega
    have hnnM := heights_nonneg l.masterMaster l.nMasters l.gap l.dh hMpos hdh2M
    have hlenM : ((l.masterMaster.take l.nMasters).map (fun p =>
        goRound (((l.dh - ((l.nMasters : ℤ) + 1) * l.gap : ℤ) : ℚ) * p))).length
        = l.nMasters := by
      simp [List.length_take]
      omega
    by_cases hS0 : l.nSlaves = 0
    · -- masters only: the master column is widened to the full desktop width
      have hnA : n = l.nMasters := by omega
      have hss0 : min l.nSlaves l.smax = 0 := by omega
      have hL1 : (Do l).1 = tilePass l.mmax (min l.nMasters l.mmax) l.dy l.gap l.dh
          (l.dx + l.gap) (l.dw - 2 * l.gap) l.masterMaster l.nMasters 0 0 := by
        simp [Do, hname, vl_ne_vr, hms, hss0]
      have hL2 : (Do l).2 = [] := by simp [Do, hss0]
      rw [hmine] at hL1
      rw [tilePass_closed l.mmax l.nMasters l.dy l.gap l.dh (l.dx + l.gap)
        (l.dw - 2 * l.gap) l.masterMaster hMm hM hMlen] at hL1
      rw [hL1, hL2, List.append_nil]
      refine ⟨?_, ?_, ?_, ?_, ?_, ?_⟩
      · rw [stackFrom_length, hlenM]
        omega
      · apply List.Pairwise.imp ?_
          (stackFrom_pairwise (l.dx + l.gap) (l.dw - 2 * l.gap) l.gap hgap _
            (l.dy + l.gap) hnnM)
        intro a b hab
        exact Or.inr (Or.inr (Or.inl hab))
      · intro r hr
        have hxw := stackFrom_mem_xw (l.dx + l.gap) (l.dw - 2 * l.gap) l.gap _ _ r hr
        have hcb := column_contain_bound (l.dx + l.gap) (l.dw - 2 * l.gap) l.gap
          l.dy l.dh l.masterMaster l.nMasters n hMn hMlen hMpos hgap hdh hsum1 r hr
        refine ⟨?_, ?_, hcb.1, hcb.2.1, hcb.2.2⟩
        · rw [hxw.1]
        · rw [hxw.1, hxw.2]
          omega
      · intro _
        rw [stackFrom_map_h]
        exact column_sum_abs l.masterMaster l.nMasters l.gap l.dh hsum1
      · intro hc
        exact absurd hc (by omega)
      · intro _ hc
        exact absurd hc (by omega)
    · -- both partitions visible: columns meet at dx + mwOf l
      have hS : 0 < l.nSlaves := by omega
      have hss : 0 < min l.nSlaves l.smax := by omega
      have hsine : min l.nSlaves l.smax = l.nSlaves := by omega
      have hss0 : ¬ (min l.nSlaves l.smax = 0) := by omega
      have hms0 : ¬ (min l.nMasters l.mmax = 0) := by omega
      have hsum2 := hSsum hS
      have hdh2S : ((l.nSlaves : ℤ) + 1) * l.gap ≤ l.dh := by
        have h1 : ((l.nSlaves : ℤ) + 1) * l.gap ≤ ((n : ℤ) + 1) * l.gap := by
          apply mul_le_mul_of_nonneg_right _ hgap
          have : (l.nSlaves : ℤ) ≤ (n : ℤ) := by exact_mod_cast hSn
          omega
        omega
      have hnnS := heights_nonneg l.slaveSlave l.nSlaves l.gap l.dh hSpos hdh2S
      have hlenS : ((l.slaveSlave.take l.nSlaves).map (fun p =>
          goRound (((l.dh - ((l.nSlaves : ℤ) + 1) * l.gap : ℤ) : ℚ) * p))).length
          = l.nSlaves := by
        simp [List.length_take]
        omega
      have hL1 : (Do l).1 = tilePass l.mmax (min l.nMasters l.mmax) l.dy l.gap l.dh
          (l.dx + l.gap) (mwOf l - 2 * l.gap) l.masterMaster l.nMasters 0 0 := by
        simp [Do, hname, vl_ne_vr, hms, hms0, hss, hss0]
      have hL2 : (Do l).2 = tilePass l.smax (min l.nSlaves l.smax) l.dy l.gap l.dh
          (l.dx + mwOf l) (l.dw - mwOf l - l.gap) l.slaveSlave l.nSlaves 0 0 := by
        simp [Do, hname, vl_ne_vr, hms, hms0, hss, hss0]
      rw [hmine] at hL1
      rw [hsine] at hL2
      rw [tilePass_closed l.mmax l.nMasters l.dy l.gap l.dh (l.dx + l.gap)
        (mwOf l - 2 * l.gap) l.masterMaster hMm hM hMlen] at hL1
      rw [tilePass_closed l.smax l.nSlaves l.dy l.gap l.dh (l.dx + mwOf l)
        (l.dw - mwOf l - l.gap) l.slaveSlave hSm hS hSlen] at hL2
      rw [hL1, hL2]
      refine ⟨?_, ?_, ?_, ?_, ?_, ?_⟩
      · rw [List.length_append, stackFrom_length, stackFrom_length, hlenM, hlenS]
        omega
      · rw [List.pairwise_append]
        refine ⟨?_, ?_, ?_⟩
        · apply List.Pairwise.imp ?_
            (stackFrom_pairwise (l.dx + l.gap) (mwOf l - 2 * l.gap) l.gap hgap _
              (l.dy + l.gap) hnnM)
          intro a b hab
          exact Or.inr (Or.inr (Or.inl hab))
        · apply List.Pairwise.imp ?_
            (stackFrom_pairwise (l.dx + mwOf l) (l.dw - mwOf l - l.gap) l.gap hgap _
              (l.dy + l.gap) hnnS)
          intro a b hab
          exact Or.inr (Or.inr (Or.inl hab))
        · intro a ha b hb
          have hxa := stackFrom_mem_xw (l.dx + l.gap) (mwOf l - 2 * l.gap) l.gap _ _ a ha
          have hxb := stackFrom_mem_xw (l.dx + mwOf l) (l.dw - mwOf l - l.gap) l.gap _ _ b hb
          left
          rw [hxa.1, hxa.2, hxb.1]
          omega
      · intro r hr
        rcases List.mem_append.mp hr with hr | hr
        · have hxw := stackFrom_mem_xw (l.dx + l.gap) (mwOf l - 2 * l.gap) l.gap _ _ r hr
          have hcb := column_contain_bound (l.dx + l.gap) (mwOf l - 2 * l.gap) l.gap
            l.dy l.dh l.masterMaster l.nMasters n hMn hMlen hMpos hgap hdh hsum1 r hr
          refine ⟨?_, ?_, hcb.1, hcb.2.1, hcb.2.2⟩
          · rw [hxw.1]
          · rw [hxw.1, hxw.2]
            omega
        · have hxw := stackFrom_mem_xw (l.dx + mwOf l) (l.dw - mwOf l - l.gap) l.gap _ _ r hr
          have hcb := column_contain_bound (l.dx + mwOf l) (l.dw - mwOf l - l.gap) l.gap
            l.dy l.dh l.slaveSlave l.nSlaves n hSn hSlen hSpos hgap hdh hsum2 r hr
          refine ⟨?_, ?_, hcb.1, hcb.2.1, hcb.2.2⟩
          · rw [hxw.1]
            omega
          · rw [hxw.1, hxw.2]
            omega
      · intro _
        rw [stackFrom_map_h]
        exact column_sum_abs l.masterMaster l.nMasters l.gap l.dh hsum1
      · intro _
        rw [stackFrom_map_h]
        exact column_sum_abs l.slaveSlave l.nSlaves l.gap l.dh hsum2
      · intro _ _
        constructor
        · intro r hr
          have hxw := stackFrom_mem_xw (l.dx + l.gap) (mwOf l - 2 * l.gap) l.gap _ _ r hr
          refine ⟨hxw.1, ?_⟩
          rw [hxw.1, hxw.2]
          ring
        · intro r hr
          have hxw := stackFrom_mem_xw (l.dx + mwOf l) (l.dw - mwOf l - l.gap) l.gap _ _ r hr
          refine ⟨hxw.1, ?_⟩
          rw [hxw.1, hxw.2]
          ring

/-- Input for the C1 witness: one master, one slave. -/
def witnessInC1 : LayoutInput :=
  { name := "vertical-left", dx := 0, dy := 0, dw := 40, dh := 40, gap := 2,
    mmax := 1, smax := 1, nMasters := 1, nSlaves := 1,
    masterSlave := [1/2, 1/2], masterMaster := [1], slaveSlave := [1] }

/-- Claim C1 witness. -/
theorem c1_amended_witness :
    List.Pairwise Rect.disjoint ((Do witnessInC1).1 ++ (Do witnessInC1).2) := by
  have h20 : goRound ((20 : ℚ)) = 20 :=
    goRound_eq_of _ _ (by norm_num) (by norm_num) (by norm_num)
  have hmw : mwOf witnessInC1 = 20 := by
    norm_num [mwOf, witnessInC1, h20]
  exact (c1_amended witnessInC1 2 rfl (by decide) (by decide) (by decide)
    (by decide) (by decide) (by decide) (by decide)
    (by rw [hmw]; decide) (by rw [hmw]; decide)
    (by decide) (by norm_num [witnessInC1]) (fun _ => by norm_num [witnessInC1])
    (by decide) (by norm_num [witnessInC1])
    (fun _ => by norm_num [witnessInC1])).2.1

/-- Input for the C4 witness: one master, one slave. -/
def witnessInC4 : LayoutInput :=
  { name := "vertical-left", dx := 0, dy := 0, dw := 100, dh := 50, gap := 2,
    mmax := 1, smax := 1, nMasters := 1, nSlaves := 1,
    masterSlave := [1/2, 1/2], masterMaster := [1], slaveSlave := [1] }

/-- Claim C4 witness. -/
theorem c4_mirror_placement_witness :
    (Do { witnessInC4 with name := "vertical-right" }).1
      = (Do witnessInC4).1.map (fun r =>
          Rect.mk (witnessInC4.dx + mwOf witnessInC4 + witnessInC4.gap) r.y
            (witnessInC4.dw - mwOf witnessInC4 - 2 * witnessInC4.gap) r.h) :=
  (c4_mirror_placement witnessInC4 rfl rfl (by decide) (by decide) (by decide)).1

/-- Input for the C8 witness: a desktop height that does not divide evenly. -/
def witnessInC8 : LayoutInput :=
  { name := "vertical-left", dx := 0, dy := 0, dw := 100, dh := 103, gap := 1,
    mmax := 1, smax := 1, nMasters := 1, nSlaves := 1,
    masterSlave := [1/2, 1/2], masterMaster := [1], slaveSlave := [1] }

/-- Claim C8 witness. -/
theorem c8_rounding_drift_witness :
    (Do witnessInC8).1.map Rect.h
      = (witnessInC8.masterMaster.take witnessInC8.nMasters).map (fun p =>
          goRound (((witnessInC8.dh
            - ((witnessInC8.nMasters : ℤ) + 1) * witnessInC8.gap : ℤ) : ℚ) * p)) :=
  (c8_rounding_drift witnessInC8 (by decide) (by decide) (by decide) (by decide)
    (by decide) (by decide) (by norm_num [witnessInC8])
    (by norm_num [witnessInC8])).1

end Cortile
